import Mathlib

/-!
# Verification of the seqan3 view/adaptor layer

Shallow embedding of the sampled core of the repository:

* `view_take_line` / `take_line_or_throw` iterators (src/unnamed/part_000):
  the underlying range is modelled as a `List Char`, the underlying cursor as
  a position `pos` into that list, and the iterator's cached exhaustion flag
  as `at_end`.  `fwd = true` models a multi-pass (ForwardRange or stronger)
  underlying range, `fwd = false` a single-pass input range; this mirrors the
  `if constexpr (!std::ranges::ForwardRange<urng_t>)` dispatch in the source.
* `trim_fn` (src/unnamed/part_001): delegates to take-while with the
  predicate `to_phred(value) >= threshold`.
* `std::span` fixed/dynamic extent conversions (src/unnamed/part_002).
* The bounded-take family (`take`, `take_exactly`, `take_exactly_or_throw`)
  whose implementation file is not among the sources (only its unit tests
  are); those definitions are modelled from the spec and marked as such.
-/

/-- The iterator state of `view_take_line::iterator_type`: the underlying
cursor position plus the cached exhaustion flag `at_end`
(src/unnamed/part_000 line 74). -/
structure LineIter where
  pos : Nat
  at_end : Bool
deriving DecidableEq, Repr

/-- The `begin()` iterator of `view_take_line`: underlying cursor at the
start, `at_end` initialised to `false` (its default member initialiser). -/
def lineBegin : LineIter :=
  { pos := 0, at_end := false }

/-- Embedding of `view_take_line::iterator_type::operator++`
(src/unnamed/part_000 lines 106-129).  First the underlying cursor is advanced; then, only for
single-pass input ranges (`fwd = false`) and only when `at_end` is not yet
set, a `\r` at the new position is consumed (setting `at_end`), and then a
`\n` at the (possibly advanced) position is consumed (setting `at_end`).
Dereferencing past the end of the list yields `none` and the comparison
with a terminator character is then false. -/
def lineSucc (fwd : Bool) (l : List Char) (it : LineIter) : LineIter :=
  let p1 := it.pos + 1
  if fwd then
    { it with pos := p1 }
  else
    if it.at_end then
      { it with pos := p1 }
    else
      let s2 : LineIter :=
        if l[p1]? = some '\r' then { pos := p1 + 1, at_end := true }
        else { pos := p1, at_end := false }
      if l[s2.pos]? = some '\n' then { pos := s2.pos + 1, at_end := true }
      else s2

/-- Embedding of `view_take_line::iterator_type::operator==(sentinel_type)`
for the non-throwing variant (`require_eol = false`), src/unnamed/part_000 lines
149-167: for single-pass ranges a set `at_end` flag reports end at once;
otherwise the iterator is at end when the underlying cursor equals the
underlying sentinel, or when the current element is `\r` or `\n`.
The comparison is a pure function of the state: it never advances the
underlying cursor and never mutates the iterator. -/
def lineEqEnd (fwd : Bool) (l : List Char) (it : LineIter) : Bool :=
  if !fwd && it.at_end then true
  else if it.pos = l.length then true
  else (l[it.pos]? == some '\r') || (l[it.pos]? == some '\n')

/-- Embedding of `view_take_line::iterator_type::operator==(sentinel_type)`
for the throwing variant (`require_eol = true`), src/unnamed/part_000 lines
149-167: identical to `lineEqEnd` except that reaching the underlying
sentinel raises `unexpected_end_of_input`. -/
def lineEqEndThrow (fwd : Bool) (l : List Char) (it : LineIter) :
    Except String Bool :=
  if !fwd && it.at_end then .ok true
  else if it.pos = l.length then
    .error "Reached end of input before end-of-line."
  else .ok ((l[it.pos]? == some '\r') || (l[it.pos]? == some '\n'))

/-- One full consuming pass over a `view_take_line` view, as performed by
its implicit container conversion `std::ranges::copy(begin(), end(), ...)`
(src/unnamed/part_000 lines 303-312): while the iterator does not compare
equal to the sentinel, dereference, collect and advance.  `fuel` bounds the
recursion; every step advances the underlying cursor by at least one, so
`l.length + 1` steps always suffice.  Returns the collected elements and
the final iterator state. -/
def collectLineAux (fwd : Bool) (l : List Char) :
    Nat → LineIter → List Char → List Char × LineIter
  | 0, it, acc => (acc.reverse, it)
  | fuel + 1, it, acc =>
    if lineEqEnd fwd l it then (acc.reverse, it)
    else
      match l[it.pos]? with
      | some c => collectLineAux fwd l fuel (lineSucc fwd l it) (c :: acc)
      | none => (acc.reverse, it)

/-- Iterate a `take_line` view over `l` from `begin()` to exhaustion. -/
def collectLine (fwd : Bool) (l : List Char) : List Char × LineIter :=
  collectLineAux fwd l (l.length + 1) lineBegin []

/-- Same pass for the `take_line_or_throw` view: the sentinel comparison may
raise, and the raise propagates out of the iteration. -/
def collectLineThrowAux (fwd : Bool) (l : List Char) :
    Nat → LineIter → List Char → Except String (List Char × LineIter)
  | 0, it, acc => .ok (acc.reverse, it)
  | fuel + 1, it, acc =>
    match lineEqEndThrow fwd l it with
    | .error e => .error e
    | .ok true => .ok (acc.reverse, it)
    | .ok false =>
      match l[it.pos]? with
      | some c => collectLineThrowAux fwd l fuel (lineSucc fwd l it) (c :: acc)
      | none => .ok (acc.reverse, it)

/-- Iterate a `take_line_or_throw` view over `l` from `begin()`. -/
def collectLineThrow (fwd : Bool) (l : List Char) :
    Except String (List Char × LineIter) :=
  collectLineThrowAux fwd l (l.length + 1) lineBegin []

/-- On an input containing no terminator character, `operator++` reduces to
a plain advance of the underlying cursor and never sets `at_end`, in both
the multi-pass and the single-pass instantiation. -/
theorem lineSucc_no_term (fwd : Bool) (l : List Char)
    (h : ∀ c ∈ l, c ≠ '\r' ∧ c ≠ '\n') (p : Nat) :
    lineSucc fwd l ⟨p, false⟩ = ⟨p + 1, false⟩ := by
  have hr : ¬ l[p + 1]? = some '\r' :=
    fun hc => (h _ (List.getElem?_mem hc)).1 rfl
  have hn : ¬ l[p + 1]? = some '\n' :=
    fun hc => (h _ (List.getElem?_mem hc)).2 rfl
  cases fwd with
  | false => simp [lineSucc, hr, hn]
  | true => simp [lineSucc]

/-- On an input containing no terminator character, one consuming pass of
the non-throwing view collects every remaining element and stops with the
underlying cursor at the underlying end, `at_end` never set. -/
theorem collectLineAux_no_term (fwd : Bool) (l : List Char)
    (h : ∀ c ∈ l, c ≠ '\r' ∧ c ≠ '\n') :
    ∀ (fuel p : Nat) (acc : List Char), p ≤ l.length → l.length < p + fuel →
    collectLineAux fwd l fuel ⟨p, false⟩ acc =
      (acc.reverse ++ l.drop p, ⟨l.length, false⟩) := by
  intro fuel
  induction fuel with
  | zero => intro p acc hp hfuel; omega
  | succ fuel ih =>
    intro p acc hp hfuel
    by_cases hpl : p = l.length
    · subst hpl
      simp [collectLineAux, lineEqEnd]
    · have hplt : p < l.length := lt_of_le_of_ne hp hpl
      have hget : l[p]? = some (l.get ⟨p, hplt⟩) := by simp
      have hcr : ¬ l[p]? = some '\r' :=
        fun hc => (h _ (List.getElem?_mem hc)).1 rfl
      have hcn : ¬ l[p]? = some '\n' :=
        fun hc => (h _ (List.getElem?_mem hc)).2 rfl
      have hend : lineEqEnd fwd l ⟨p, false⟩ = false := by
        simp [lineEqEnd, hpl, hcr, hcn]
      rw [collectLineAux, hend]
      simp only [Bool.false_eq_true, if_false, hget]
      rw [lineSucc_no_term fwd l h p,
          ih (p + 1) (l.get ⟨p, hplt⟩ :: acc) (by omega) (by omega)]
      rw [List.drop_eq_getElem_cons hplt]
      simp

/-- On an input containing no terminator character, one consuming pass of
the throwing view raises as soon as the sentinel comparison reaches the
underlying end. -/
theorem collectLineThrowAux_no_term (fwd : Bool) (l : List Char)
    (h : ∀ c ∈ l, c ≠ '\r' ∧ c ≠ '\n') :
    ∀ (fuel p : Nat) (acc : List Char), p ≤ l.length → l.length < p + fuel →
    collectLineThrowAux fwd l fuel ⟨p, false⟩ acc =
      .error "Reached end of input before end-of-line." := by
  intro fuel
  induction fuel with
  | zero => intro p acc hp hfuel; omega
  | succ fuel ih =>
    intro p acc hp hfuel
    by_cases hpl : p = l.length
    · subst hpl
      simp [collectLineThrowAux, lineEqEndThrow]
    · have hplt : p < l.length := lt_of_le_of_ne hp hpl
      have hget : l[p]? = some (l.get ⟨p, hplt⟩) := by simp
      have hcr : ¬ l[p]? = some '\r' :=
        fun hc => (h _ (List.getElem?_mem hc)).1 rfl
      have hcn : ¬ l[p]? = some '\n' :=
        fun hc => (h _ (List.getElem?_mem hc)).2 rfl
      have hend : lineEqEndThrow fwd l ⟨p, false⟩ = .ok false := by
        simp [lineEqEndThrow, hpl, hcr, hcn]
      rw [collectLineThrowAux, hend]
      simp only [hget]
      rw [lineSucc_no_term fwd l h p,
          ih (p + 1) (l.get ⟨p, hplt⟩ :: acc) (by omega) (by omega)]

/-- C2: for every input that reaches its underlying end without ever
containing a line terminator, iterating `take_line_or_throw` raises the
distinguished "unexpected end of input" failure when the end is crossed,
while iterating `take_line` over the same input yields all remaining
elements as the last line and terminates without error (cursor at the
underlying end).  Both behaviour modes (multi-pass and single-pass) are
covered by quantifying over `fwd`. -/
theorem take_line_or_throw_missing_terminator (fwd : Bool) (l : List Char)
    (h : ∀ c ∈ l, c ≠ '\r' ∧ c ≠ '\n') :
    collectLineThrow fwd l = .error "Reached end of input before end-of-line." ∧
    collectLine fwd l = (l, ⟨l.length, false⟩) := by
  constructor
  · exact collectLineThrowAux_no_term fwd l h (l.length + 1) 0 []
      (Nat.zero_le _) (by omega)
  · have := collectLineAux_no_term fwd l h (l.length + 1) 0 []
      (Nat.zero_le _) (by omega)
    simpa [collectLine, lineBegin] using this

/-- Witness for C2 at the concrete terminator-free input `"foo"`,
single-pass mode. -/
theorem take_line_or_throw_missing_terminator_witness :
    collectLineThrow false ("foo".toList) =
      .error "Reached end of input before end-of-line." ∧
    collectLine false ("foo".toList) =
      ("foo".toList, ⟨("foo".toList).length, false⟩) :=
  take_line_or_throw_missing_terminator false ("foo".toList) (by decide)

/-- C10: for a `take_line` view over a single-pass input whose first
remaining element is already a line terminator, the begin iterator compares
equal to the sentinel immediately (the line is empty) and the terminator is
not consumed: the full pass yields no elements and returns the iterator in
its initial state (`pos = 0`, `at_end = false`), i.e. the sentinel
comparison neither advanced the underlying cursor nor set `at_end`.
`lineEqEnd` is a pure function of the iterator state, mirroring that
`operator==` is `const` and mutation happens only in `operator++`. -/
theorem take_line_begin_terminator_no_consume (l : List Char) (c : Char)
    (hc : l[0]? = some c) (hterm : c = '\r' ∨ c = '\n') :
    lineBegin.at_end = false ∧
    lineEqEnd false l lineBegin = true ∧
    collectLine false l = ([], lineBegin) := by
  have hlen : 0 < l.length := by
    obtain ⟨hl, -⟩ := List.getElem?_eq_some.mp hc
    exact hl
  have h1 : lineEqEnd false l lineBegin = true := by
    rcases hterm with h | h <;> subst h <;>
      simp [lineEqEnd, lineBegin, hc, (by omega : ¬ (0 = l.length))]
  refine ⟨rfl, h1, ?_⟩
  rcases l with - | ⟨a, t⟩
  · simp at hlen
  · simp [collectLine, collectLineAux, lineBegin] at h1 ⊢
    simp [h1]

/-- Witness for C10 at the concrete single-pass input `"\nfoo"`. -/
theorem take_line_begin_terminator_no_consume_witness :
    lineBegin.at_end = false ∧
    lineEqEnd false ("\nfoo".toList) lineBegin = true ∧
    collectLine false ("\nfoo".toList) = ([], lineBegin) :=
  take_line_begin_terminator_no_consume ("\nfoo".toList) '\n' (by decide)
    (Or.inr rfl)

/-- C1: `take_line` on the multi-pass input `"foo\nbar"` yields exactly
`"foo"` and leaves the underlying cursor at position 3, the `'\n'`
terminator (not consumed); on a single-pass wrapping of the same input it
also yields `"foo"` but the iterator advances past the terminator, leaving
the underlying cursor at position 4, the `'b'`. -/
theorem take_line_foo_bar :
    (collectLine true ("foo\nbar".toList)).1 = "foo".toList ∧
    (collectLine true ("foo\nbar".toList)).2.pos = 3 ∧
    ("foo\nbar".toList)[3]? = some '\n' ∧
    (collectLine false ("foo\nbar".toList)).1 = "foo".toList ∧
    (collectLine false ("foo\nbar".toList)).2.pos = 4 ∧
    ("foo\nbar".toList)[4]? = some 'b' := by
  decide

/-- Embedding of `trim_fn::operator()(irng_t&&, underlying_phred_t)`
(src/unnamed/part_001 lines 37-48): delegates to take-while with the
predicate `to_phred(value) >= threshold`.  The quality-carrying element
type `α` is kept abstract (the alphabet layer is an external collaborator);
`to_phred` is its phred-score projection. -/
def trim_fn {α : Type} (to_phred : α → Nat) (irange : List α)
    (threshold : Nat) : List α :=
  irange.takeWhile (fun value => to_phred value ≥ threshold)

/-- Embedding of `trim_fn::operator()(irng_t&&, value_type)`
(src/unnamed/part_001 lines 55-63): forwards to the phred-score overload at
`to_phred(threshold)`. -/
def trim_fn_value {α : Type} (to_phred : α → Nat) (irange : List α)
    (threshold : α) : List α :=
  trim_fn to_phred irange (to_phred threshold)

/-- The element right after the run collected by take-while fails the
predicate. -/
theorem takeWhile_stop {α : Type} (p : α → Bool) :
    ∀ (l : List α) (c : α), l[(l.takeWhile p).length]? = some c → p c = false := by
  intro l
  induction l with
  | nil => intro c hc; simp at hc
  | cons a t ih =>
    intro c hc
    by_cases hpa : p a = true
    · rw [List.takeWhile_cons_of_pos hpa] at hc
      exact ih c (by simpa using hc)
    · rw [List.takeWhile_cons_of_neg (by simpa using hpa)] at hc
      simp at hc
      subst hc
      simpa using hpa

/-- C6: for every input sequence of quality-carrying elements and every
threshold `t`, `trim` yields exactly the longest leading run of elements
whose phred score is at least `t`: the result is a leading portion of the
input, every yielded element passes the threshold, and the element at which
it stops (the first one past the run, if any) is below the threshold —
independent of any later scores.  The value-typed threshold overload agrees
with the phred-typed one. -/
theorem trim_longest_leading_run {α : Type} (to_phred : α → Nat)
    (l : List α) (t : Nat) :
    trim_fn to_phred l t <+: l ∧
    (∀ x ∈ trim_fn to_phred l t, t ≤ to_phred x) ∧
    (∀ c, l[(trim_fn to_phred l t).length]? = some c → to_phred c < t) ∧
    (∀ v : α, trim_fn_value to_phred l v = trim_fn to_phred l (to_phred v)) := by
  refine ⟨List.takeWhile_prefix _, ?_, ?_, fun v => rfl⟩
  · intro x hx
    have := List.mem_takeWhile_imp hx
    simpa using this
  · intro c hc
    have := takeWhile_stop (fun value => to_phred value ≥ t) l c hc
    simpa using this

/-- Witness for C6: scores `[30, 25, 10, 28]` at threshold `20` yield the
first two elements only, and the element the run stops at scores `10 < 20`. -/
theorem trim_longest_leading_run_witness :
    trim_fn (fun n => n) [30, 25, 10, 28] 20 = [30, 25] ∧ (10 : Nat) < 20 :=
  ⟨by decide,
   (trim_longest_leading_run (fun n => n) [30, 25, 10, 28] 20).2.2.1 10
     (by decide)⟩

/-- Modelled from the spec: the `deep` adaptor wrapper
(seqan3/range/view/deep.hpp is not among the sources) used in
`inline constexpr auto trim = deep{seqan3::detail::trim_fn{}}`
(src/unnamed/part_001 line 192).  Per the spec, "given a range-of-range as
input (as opposed to just a range), it will apply the transformation on the
innermost range (instead of the outermost range)", recursing exactly one
level: the wrapped `trim_fn` is applied to each inner sequence
individually. -/
def deep_trim {α : Type} (to_phred : α → Nat) (ll : List (List α))
    (t : Nat) : List (List α) :=
  ll.map (fun inner => trim_fn to_phred inner t)

/-- C7: `trim` on a sequence-of-sequences applies the threshold to each
inner sequence independently: the outer structure is preserved (same outer
length), the inner sequence at every index is exactly the trim of the
corresponding input inner sequence, and trimming `[[30,10],[5,40]]` at
threshold `20` yields a two-element outer sequence whose inner sequences
have `1` and `0` elements respectively. -/
theorem trim_deep_per_inner {α : Type} :
    (∀ (to_phred : α → Nat) (ll : List (List α)) (t : Nat),
        (deep_trim to_phred ll t).length = ll.length ∧
        ∀ i : Nat, (deep_trim to_phred ll t)[i]? =
          (ll[i]?).map (fun inner => trim_fn to_phred inner t)) ∧
    deep_trim (fun n => n) [[30, 10], [5, 40]] 20 = [[30], []] ∧
    (deep_trim (fun n => n) [[30, 10], [5, 40]] 20).map List.length = [1, 0] := by
  refine ⟨fun to_phred ll t => ⟨?_, fun i => ?_⟩, by decide, by decide⟩
  · simp [deep_trim]
  · simp [deep_trim, List.getElem?_map]

/-- Modelled from the spec: `view::take` (seqan3/range/view/take.hpp is not
among the sources; only its unit tests are, in
src/test/unit/range/view/view_take_test.cpp).  Per the spec it is a "view
restricted to min(n, len(seq)) elements"; it "does not assert that seq has
at least n elements; if shorter, iteration simply ends early at the
underlying end". -/
def view_take {α : Type} (seq : List α) (n : Nat) : List α :=
  seq.take n

/-- Modelled from the spec: the view type behind `view::take_exactly`
(seqan3/range/view/take_exactly.hpp is not among the sources; only its unit
tests are).  The view stores the underlying sequence and the bound; it has
the "same element selection as take, but always reports size = n, even over
single-pass inputs where the true remaining length is unknown until
consumed". -/
structure TakeExactlyView (α : Type) where
  urange : List α
  count : Nat
deriving DecidableEq, Repr

/-- Reported size of a `take_exactly` view: always the bound `n`. -/
def TakeExactlyView.size {α : Type} (v : TakeExactlyView α) : Nat :=
  v.count

/-- Iterating a `take_exactly` view: same element selection as `take`,
ending early at the underlying end when the sequence is shorter. -/
def TakeExactlyView.toList {α : Type} (v : TakeExactlyView α) : List α :=
  v.urange.take v.count

/-- C3: for every single-pass sequence `s` and bound `n > len(s)`, the
`take_exactly(s, n)` view reports `size() = n` while iterating it yields
exactly the `len(s)` elements of `s`; both are defined, non-failing
outcomes (`size` and `toList` are total functions). -/
theorem take_exactly_size_discrepancy {α : Type} (s : List α) (n : Nat)
    (h : s.length < n) :
    (TakeExactlyView.mk s n).size = n ∧
    (TakeExactlyView.mk s n).toList = s ∧
    ((TakeExactlyView.mk s n).toList).length = s.length := by
  have hs : (TakeExactlyView.mk s n).toList = s := by
    simp [TakeExactlyView.toList]
    omega
  exact ⟨rfl, hs, by rw [hs]⟩

/-- Witness for C3 at the single-pass input `"foo"` and bound `4`. -/
theorem take_exactly_size_discrepancy_witness :
    (TakeExactlyView.mk ['f', 'o', 'o'] 4).size = 4 ∧
    (TakeExactlyView.mk ['f', 'o', 'o'] 4).toList = ['f', 'o', 'o'] ∧
    ((TakeExactlyView.mk ['f', 'o', 'o'] 4).toList).length =
      (['f', 'o', 'o'] : List Char).length :=
  take_exactly_size_discrepancy ['f', 'o', 'o'] 4 (by decide)

/-- The two failure conditions of the `_or_throw` adaptors: the
construction-time "invalid argument" failure and the iteration-time
"unexpected end of input" failure (spec section 7; test file
src/test/unit/range/view/view_take_test.cpp lines 224-233). -/
inductive SeqError where
  | invalid_argument
  | unexpected_end_of_input
deriving DecidableEq, Repr

/-- Modelled from the spec: construction of `view::take_exactly_or_throw`
over a sized underlying sequence (seqan3/range/view/take_exactly.hpp is not
among the sources): "the adaptor construction itself fails immediately
(before any iteration) if the underlying sequence is both sized and shorter
than n", with an "invalid argument" failure; otherwise the view is
constructed. -/
def take_exactly_or_throw_sized {α : Type} (s : List α) (n : Nat) :
    Except SeqError (TakeExactlyView α) :=
  if s.length < n then .error .invalid_argument
  else .ok (TakeExactlyView.mk s n)

/-- Modelled from the spec: iterating `view::take_exactly_or_throw` over a
non-sized (single-pass) input: "iteration fails with an unexpected end of
input condition if it reaches the underlying end before n elements have
been produced"; otherwise it yields the first `n` elements. -/
def take_exactly_or_throw_collect {α : Type} :
    List α → Nat → Except SeqError (List α)
  | _, 0 => .ok []
  | [], _ + 1 => .error .unexpected_end_of_input
  | c :: cs, n + 1 => (take_exactly_or_throw_collect cs n).map (c :: ·)

/-- C4: for every sequence `s` and bound `n` with `len(s) < n`,
constructing `take_exactly_or_throw(s, n)` over the sized `s` fails
immediately with the "invalid argument" failure before any element is
produced, and iterating the view constructed over a non-sized (single-pass)
wrapping of `s` fails with the "unexpected end of input" condition when the
underlying end is reached before `n` elements have been produced. -/
theorem take_exactly_or_throw_short_input {α : Type} (s : List α) (n : Nat)
    (h : s.length < n) :
    take_exactly_or_throw_sized s n = .error .invalid_argument ∧
    take_exactly_or_throw_collect s n = .error .unexpected_end_of_input := by
  refine ⟨by simp [take_exactly_or_throw_sized, h], ?_⟩
  induction s generalizing n with
  | nil =>
    cases n with
    | zero => omega
    | succ n => rfl
  | cons c cs ih =>
    cases n with
    | zero => omega
    | succ n =>
      have hcs : cs.length < n := by simpa using h
      show (take_exactly_or_throw_collect cs n).map (c :: ·) =
        .error .unexpected_end_of_input
      rw [ih n hcs]
      rfl

/-- Witness for C4 at the input `"foo"` and bound `4`. -/
theorem take_exactly_or_throw_short_input_witness :
    take_exactly_or_throw_sized ['f', 'o', 'o'] 4 =
      .error SeqError.invalid_argument ∧
    take_exactly_or_throw_collect ['f', 'o', 'o'] 4 =
      .error SeqError.unexpected_end_of_input :=
  take_exactly_or_throw_short_input ['f', 'o', 'o'] 4 (by decide)

/-- C5: for every sequence `s` and bounds `a`, `b`, the chained view
`take(s, a) | take(., b)` yields exactly the first `min(a, b, len(s))`
elements of `s` in order: the chain equals the plain `min(a, b)`-element
leading selection from `s`, and its length is `min(a, b, len(s))`. -/
theorem take_chain_min {α : Type} (s : List α) (a b : Nat) :
    view_take (view_take s a) b = s.take (min a b) ∧
    (view_take (view_take s a) b).length = min (min a b) s.length := by
  constructor
  · simp [view_take, List.take_take, Nat.min_comm]
  · simp only [view_take, List.length_take]
    omega

/-- Embedding of `trim_fn::delegate` (src/unnamed/part_001 lines 81-95):
the bound-threshold wrapper is a distinct small value holding only the
threshold (its reference to the parent functor carries no data, since
`trim_fn` is stateless). -/
structure delegate (threshold_t : Type) where
  threshold : threshold_t

/-- Embedding of the range-less `trim_fn::operator()(threshold)`
(src/unnamed/part_001 lines 105-114): returns `delegate{threshold, *this}`
without touching any sequence. -/
def trim_fn_bind (threshold : Nat) : delegate Nat :=
  delegate.mk threshold

/-- Embedding of `trim_fn::delegate::operator()(irng_t&&)`
(src/unnamed/part_001 lines 89-95): forwards to the two-parameter
`operator()` of the parent, i.e. `parent(irange, threshold)`. -/
def delegate_app {α : Type} (to_phred : α → Nat) (d : delegate Nat)
    (irange : List α) : List α :=
  trim_fn to_phred irange d.threshold

/-- Embedding of `trim_fn`'s friend `operator|(irange, bound_view)`
(src/unnamed/part_001 lines 116-135): returns `bound_view(irange)`. -/
def trim_pipe {α : Type} (to_phred : α → Nat) (irange : List α)
    (d : delegate Nat) : List α :=
  delegate_app to_phred d irange

/-- Modelled from the spec: `pipable_adaptor_base`
(seqan3/range/view/detail.hpp is not among the sources), the CRTP base of
`take_line_fn` (src/unnamed/part_000 lines 339-371) and the other adaptors:
it provides "a pipe operator seq | adaptor_closure equivalent to the direct
form", i.e. piping applies the adaptor closure to the sequence. -/
def pipe_apply {α β : Type} (seq : α) (adaptor_closure : α → β) : β :=
  adaptor_closure seq

/-- C8: the pipe form produces the same resulting view as the direct form,
and chains compose left to right.  Concretely: piping a sequence into
trim's bound-threshold delegate yields exactly the direct two-argument
`trim_fn` call; piping into the `take_line` adaptor yields exactly the
direct `take_line` application (for both behaviour modes); and for any two
adaptor closures `A` and `B`, `seq | A | B` equals `B(A(seq))`.  In the
embedding views are the element sequences they yield, so "same resulting
view" is equality of the produced values. -/
theorem adaptor_pipe_eq_direct {α γ δ ε : Type} :
    (∀ (to_phred : α → Nat) (l : List α) (t : Nat),
        trim_pipe to_phred l (trim_fn_bind t) = trim_fn to_phred l t) ∧
    (∀ (fwd : Bool) (l : List Char),
        pipe_apply l (collectLine fwd) = collectLine fwd l) ∧
    (∀ (seq : γ) (A : γ → δ) (B : δ → ε),
        pipe_apply (pipe_apply seq A) B = B (A seq)) :=
  ⟨fun _ _ _ => rfl, fun _ _ => rfl, fun _ _ _ => rfl⟩

/-- Embedding of `std::span` with a fixed extent `n` (src/unnamed/part_002
lines 77-232): only the data pointer is stored (modelled as an address);
the length is the compile-time extent `n`. -/
structure span_fixed (n : Nat) where
  data : Nat
deriving DecidableEq, Repr

/-- Fixed-extent `span::size()` returns the extent (src/unnamed/part_002
line 188). -/
def span_fixed.size {n : Nat} (_ : span_fixed n) : Nat :=
  n

/-- Embedding of `std::span` with dynamic extent (src/unnamed/part_002
lines 234-387): the data pointer and the size are both stored. -/
structure span_dyn where
  data : Nat
  size : Nat
deriving DecidableEq, Repr

/-- Embedding of the dynamic-extent converting constructor
`span(const span<OtherElementType, _OtherExtent>&)` (src/unnamed/part_002
lines 283-288): copies pointer and size with no check — it always
succeeds, for every fixed-extent value. -/
def span_fixed_to_dyn {n : Nat} (other : span_fixed n) : span_dyn :=
  span_dyn.mk other.data other.size

/-- Embedding of the fixed-extent converting constructor
`span(const span<OtherElementType, dynamic_extent>&)` (src/unnamed/part_002
lines 132-137): copies the pointer, guarded by the length check
`span_extent == other.size()`; modelled as `none` when the check fails. -/
def span_dyn_to_fixed (n : Nat) (other : span_dyn) : Option (span_fixed n) :=
  if n = other.size then some (span_fixed.mk other.data) else none

/-- C9: converting a fixed-extent memory view to a dynamic-extent one
always succeeds and preserves the (pointer, length) pair, while converting
a dynamic-extent view to a fixed-extent one succeeds exactly when the
dynamic view's length equals the fixed extent, and then preserves the
(pointer, length) pair. -/
theorem span_extent_conversions :
    (∀ (n : Nat) (s : span_fixed n),
        span_fixed_to_dyn s = span_dyn.mk s.data n) ∧
    (∀ (n : Nat) (s : span_dyn),
        (span_dyn_to_fixed n s).isSome ↔ s.size = n) ∧
    (∀ (n : Nat) (s : span_dyn) (f : span_fixed n),
        span_dyn_to_fixed n s = some f → f.data = s.data ∧ f.size = s.size) := by
  refine ⟨fun n s => rfl, fun n s => ?_, fun n s f hf => ?_⟩
  · by_cases hn : n = s.size
    · simp [span_dyn_to_fixed, hn]
    · simp [span_dyn_to_fixed, hn]
      exact fun hc => hn hc.symm
  · by_cases hn : n = s.size
    · simp [span_dyn_to_fixed, hn] at hf
      subst hf
      exact ⟨rfl, hn.symm ▸ rfl⟩
    · simp [span_dyn_to_fixed, hn] at hf

/-- Witness for C9 at extent 2 and a dynamic span of address 7, size 2. -/
theorem span_extent_conversions_witness :
    span_fixed_to_dyn (span_fixed.mk (n := 2) 7) = span_dyn.mk 7 2 ∧
    ((span_dyn_to_fixed 2 (span_dyn.mk 7 2)).isSome ↔
      (span_dyn.mk 7 2).size = 2) ∧
    ((span_fixed.mk (n := 2) 7).data = (span_dyn.mk 7 2).data ∧
      (span_fixed.mk (n := 2) 7).size = (span_dyn.mk 7 2).size) :=
  ⟨span_extent_conversions.1 2 (span_fixed.mk 7),
   span_extent_conversions.2.1 2 (span_dyn.mk 7 2),
   span_extent_conversions.2.2 2 (span_dyn.mk 7 2) (span_fixed.mk 7)
     (by decide)⟩
